import Mathlib

/-!
Verification of the relaxation engine of `jax_verify/src/relaxation.py`.

The development shallowly embeds the program in Lean 4:
machine floats are modelled as exact rationals (`ℚ`), tensors as lists or
`Fin`-indexed functions over `ℚ`, and the elementwise array operations of the
source (`jnp.where`, `jnp.maximum`, ...) as the corresponding pointwise
operations.  Fallible code paths return `Except`.
-/

namespace JaxVerify

/-- The epsilon `1e-12` used in `_get_relu_relax` to floor the denominator. -/
def relaxEps : ℚ := 1 / 10 ^ 12

/-- Embeds `_get_relu_relax(lower, upper)` (relaxation.py lines 260-269),
elementwise.  Source:
`on = lower >= 0.`;
`amb = logical_and(lower < 0., upper > 0.)`;
`slope = where(on, 1, 0) + where(amb, upper/maximum(upper-lower, 1e-12), 0)`;
`bias = where(amb, -lower*upper/maximum(upper-lower, 1e-12), 0)`. -/
def getReluRelax (lower upper : ℚ) : ℚ × ℚ :=
  let denom := max (upper - lower) relaxEps
  ((if 0 ≤ lower then (1 : ℚ) else 0)
     + (if lower < 0 ∧ 0 < upper then upper / denom else 0),
   if lower < 0 ∧ 0 < upper then -lower * upper / denom else 0)

/-- One element of a `RelaxActivationConstraint` (relaxation.py lines 106-115):
the relation `outvar (sense) scale * invar + bias`, where `sense` is `0` for
equality, `1` for `≥` and `-1` for `≤`, exactly as encoded in the source. -/
structure ActConstraintE where
  scale : ℚ
  bias : ℚ
  sense : Int
  deriving DecidableEq

/-- Satisfaction of one elementwise activation constraint, following the
docstring "Represents the constraint outvar =(>)(<) scale * invar + bias". -/
def ActConstraintE.holds (c : ActConstraintE) (outv xv : ℚ) : Prop :=
  if c.sense = 0 then outv = c.scale * xv + c.bias
  else if c.sense = 1 then c.scale * xv + c.bias ≤ outv
  else outv ≤ c.scale * xv + c.bias

instance (c : ActConstraintE) (outv xv : ℚ) : Decidable (c.holds outv xv) := by
  unfold ActConstraintE.holds
  infer_instance

/-- The three elementwise activation constraints emitted for a ReLU node by
`_relax_primitive` (relaxation.py lines 352-368): `out ≥ 0`, `out ≥ x`, and
the upper chord `out ≤ slope·x + bias`. -/
def reluConstraintsE (l u : ℚ) : List ActConstraintE :=
  [⟨0, 0, 1⟩, ⟨1, 0, 1⟩, ⟨(getReluRelax l u).1, (getReluRelax l u).2, -1⟩]

lemma getReluRelax_active (l u : ℚ) (h : 0 ≤ l) : getReluRelax l u = (1, 0) := by
  have h2 : ¬(l < 0 ∧ 0 < u) := fun hc => absurd h (not_le.2 hc.1)
  simp [getReluRelax, h, h2]

lemma getReluRelax_inactive (l u : ℚ) (h : l < 0) (h2 : u ≤ 0) :
    getReluRelax l u = (0, 0) := by
  have h3 : ¬(0 ≤ l) := not_le.2 h
  have h4 : ¬(l < 0 ∧ 0 < u) := fun hc => absurd h2 (not_le.2 hc.2)
  simp [getReluRelax, h3, h4]

lemma getReluRelax_ambiguous (l u : ℚ) (h : l < 0) (h2 : 0 < u) :
    getReluRelax l u
      = (u / max (u - l) relaxEps, -l * u / max (u - l) relaxEps) := by
  have h3 : ¬(0 ≤ l) := not_le.2 h
  simp [getReluRelax, h3, h, h2]

/-- C1 (amended): for every element with `lower ≤ upper`, PROVIDED the
epsilon floor is inactive in the ambiguous regime (`lower < 0 < upper →
upper - lower ≥ 1e-12`), the three emitted activation constraints are all
satisfied by `out = max x 0` for every `x ∈ [lower, upper]`, and when
`lower < 0 < upper` the upper-envelope constraint is an equality at
`x = lower` and at `x = upper`.  (The unamended claim, without the epsilon
proviso, is refuted by `relu_chord_unsound_below_eps`.) -/
theorem relu_triangle_sound_and_tight (l u x : ℚ) (hlu : l ≤ u) (hxl : l ≤ x)
    (hxu : x ≤ u) (heps : l < 0 → 0 < u → relaxEps ≤ u - l) :
    (∀ c ∈ reluConstraintsE l u, c.holds (max x 0) x)
    ∧ (l < 0 → 0 < u →
        (getReluRelax l u).1 * l + (getReluRelax l u).2 = max l 0
        ∧ (getReluRelax l u).1 * u + (getReluRelax l u).2 = max u 0) := by
  constructor
  · intro c hc
    have hge0 : (0 : ℚ) * x + 0 ≤ max x 0 := by simp
    have hgex : (1 : ℚ) * x + 0 ≤ max x 0 := by simp
    have hchord : max x 0 ≤ (getReluRelax l u).1 * x + (getReluRelax l u).2 := by
      rcases le_or_lt 0 l with h0 | h0
      · rw [getReluRelax_active l u h0]
        have hx : max x 0 = x := max_eq_left (h0.trans hxl)
        simp [hx]
      · rcases le_or_lt u 0 with h1 | h1
        · rw [getReluRelax_inactive l u h0 h1]
          have hx : max x 0 = 0 := max_eq_right (hxu.trans h1)
          simp [hx]
        · rw [getReluRelax_ambiguous l u h0 h1]
          have hd : max (u - l) relaxEps = u - l := max_eq_left (heps h0 h1)
          rw [hd]
          have hul : (0 : ℚ) < u - l := by linarith
          rw [div_mul_eq_mul_div, div_add_div_same, le_div_iff₀ hul]
          rcases le_or_lt x 0 with h2 | h2
          · rw [max_eq_right h2]
            nlinarith [mul_nonneg h1.le (sub_nonneg.2 hxl)]
          · rw [max_eq_left h2.le]
            nlinarith [mul_nonneg (neg_nonneg.2 h0.le) (sub_nonneg.2 hxu)]
    simp only [reluConstraintsE, List.mem_cons, List.not_mem_nil, or_false] at hc
    rcases hc with rfl | rfl | rfl
    · simp [ActConstraintE.holds]
    · simp [ActConstraintE.holds]
    · simpa [ActConstraintE.holds] using hchord
  · intro h0 h1
    rw [getReluRelax_ambiguous l u h0 h1]
    have hd : max (u - l) relaxEps = u - l := max_eq_left (heps h0 h1)
    rw [hd]
    have hul : (u : ℚ) - l ≠ 0 := by linarith
    constructor
    · rw [max_eq_right h0.le]
      field_simp
      ring
    · rw [max_eq_left h1.le]
      field_simp
      ring

lemma q_neg_one_le_one : (-1 : ℚ) ≤ 1 := by norm_num

lemma q_neg_one_le_zero : (-1 : ℚ) ≤ 0 := by norm_num

lemma q_zero_le_one : (0 : ℚ) ≤ 1 := by norm_num

lemma eps_le_two : relaxEps ≤ (1 : ℚ) - -1 := by norm_num [relaxEps]

/-- Witness for C1 at `lower = -1`, `upper = 1`, `x = 0`. -/
theorem relu_triangle_sound_and_tight_witness :
    (∀ c ∈ reluConstraintsE (-1 : ℚ) 1, c.holds (max (0 : ℚ) 0) 0)
    ∧ ((-1 : ℚ) < 0 → (0 : ℚ) < 1 →
        (getReluRelax (-1) 1).1 * (-1) + (getReluRelax (-1) 1).2 = max (-1 : ℚ) 0
        ∧ (getReluRelax (-1) 1).1 * 1 + (getReluRelax (-1) 1).2 = max (1 : ℚ) 0) :=
  relu_triangle_sound_and_tight (-1) 1 0 q_neg_one_le_one q_neg_one_le_zero
    q_zero_le_one (fun _ _ => eps_le_two)

/-- C1 counterexample: on the interval `[-eps/4, eps/4]` (which satisfies
`lower ≤ upper` and straddles zero with width `eps/2 < eps`), the floored
denominator makes the upper chord evaluate below `max x 0` at `x = upper`:
the emitted constraints are NOT all satisfied by the true ReLU value. -/
theorem relu_chord_unsound_below_eps :
    (-(relaxEps / 4) : ℚ) ≤ relaxEps / 4
    ∧ (-(relaxEps / 4) : ℚ) ≤ relaxEps / 4
    ∧ (relaxEps / 4 : ℚ) ≤ relaxEps / 4
    ∧ ¬(∀ c ∈ reluConstraintsE (-(relaxEps / 4)) (relaxEps / 4),
          c.holds (max (relaxEps / 4) 0) (relaxEps / 4)) := by
  have hl : (-(relaxEps / 4) : ℚ) < 0 := by norm_num [relaxEps]
  have hu : (0 : ℚ) < relaxEps / 4 := by norm_num [relaxEps]
  refine ⟨by linarith, by linarith, le_refl _, fun hall => ?_⟩
  have h3 := hall ⟨(getReluRelax (-(relaxEps / 4)) (relaxEps / 4)).1,
                   (getReluRelax (-(relaxEps / 4)) (relaxEps / 4)).2, -1⟩
      (by simp [reluConstraintsE])
  rw [getReluRelax_ambiguous _ _ hl hu] at h3
  have hmax : max (relaxEps / 4 - -(relaxEps / 4)) relaxEps = relaxEps :=
    max_eq_right (by norm_num [relaxEps])
  rw [max_eq_left hu.le] at h3
  simp only [ActConstraintE.holds, hmax] at h3
  norm_num [relaxEps] at h3

/-- C5 (amended): for `lower == upper == 0` the source picks the ACTIVE
regime (`on = lower >= 0.` fires first), yielding upper-envelope slope 1 and
bias 0 — not the inactive regime claimed — and the envelope still collapses
to `out == 0`: the three emitted constraints at `x = 0` are satisfied
exactly by `out = 0`. -/
theorem relu_zero_zero_active_collapse :
    getReluRelax 0 0 = (1, 0)
    ∧ ∀ outv : ℚ, (∀ c ∈ reluConstraintsE 0 0, c.holds outv 0) ↔ outv = 0 := by
  refine ⟨getReluRelax_active 0 0 le_rfl, fun outv => ?_⟩
  constructor
  · intro hall
    have h1 := hall ⟨1, 0, 1⟩ (by simp [reluConstraintsE])
    have h2 := hall ⟨(getReluRelax 0 0).1, (getReluRelax 0 0).2, -1⟩
        (by simp [reluConstraintsE])
    rw [getReluRelax_active 0 0 le_rfl] at h2
    simp [ActConstraintE.holds] at h1 h2
    linarith
  · intro h
    subst h
    intro c hc
    simp only [reluConstraintsE, List.mem_cons, List.not_mem_nil, or_false] at hc
    rcases hc with rfl | rfl | rfl <;>
      simp [ActConstraintE.holds, getReluRelax_active 0 0 le_rfl]

/-- Witness for C5: the regime picked at `lower = upper = 0` is the active
one. -/
theorem relu_zero_zero_active_collapse_witness : getReluRelax 0 0 = (1, 0) :=
  relu_zero_zero_active_collapse.1

/-- C5 counterexample: the claim says `lower == upper == 0` selects the
inactive regime (slope 0, bias 0); the source computes slope 1, bias 0. -/
theorem relu_zero_zero_not_inactive : getReluRelax 0 0 ≠ (0, 0) := by
  rw [getReluRelax_active 0 0 le_rfl]
  intro h
  have h1 := congrArg Prod.fst h
  norm_num at h1

/-- C3 counterexample: at `lower = upper = 0` the bound satisfies
`upper ≤ 0`, yet the computed upper-envelope slope is 1, not the claimed 0
(the `lower >= 0` test fires first in the source). -/
theorem relu_inactive_regime_misstated :
    ((0 : ℚ) ≤ 0) ∧ getReluRelax 0 0 ≠ (0, 0) := by
  refine ⟨le_rfl, ?_⟩
  rw [getReluRelax_active 0 0 le_rfl]
  intro h
  have h1 := congrArg Prod.fst h
  norm_num at h1

/-- The bias array of a `LinearConstraint`: either a scalar (shape `()`,
shared by all samples) or carrying a leading batch dimension. -/
inductive BiasT
  | scalar (q : ℚ)
  | batched (l : List ℚ)
  deriving DecidableEq

/-- A coefficient array of a `LinearConstraint`: 1-D (`flat`, shared across
samples) or 2-D with a leading batch dimension (`batched`). -/
inductive CoeffT
  | flat (l : List ℚ)
  | batched (ls : List (List ℚ))
  deriving DecidableEq

/-- Source `bool(bias.shape)`: whether the array has a (leading)
dimension at all. -/
def BiasT.isBatched : BiasT → Bool
  | .scalar _ => false
  | .batched _ => true

/-- Whether a coefficient array itself carries a leading batch dimension. -/
def CoeffT.isSampleDependent : CoeffT → Bool
  | .flat _ => false
  | .batched _ => true

/-- Source `coeffs[index]`: indexing a 2-D coefficient array yields
its `index`-th row; indexing a 1-D array yields a scalar (modelled as a
singleton list). -/
def CoeffT.indexAt : CoeffT → ℕ → CoeffT
  | .batched ls, i => .flat (ls.getD i [])
  | .flat l, i => .flat [l.getD i 0]

/-- Embeds the `LinearConstraint` class (relaxation.py lines 56-94):
`_vars_and_coeffs` is a list of `(variable, (component_indices, coeffs))`
references (variables stand by their node id), `_bias` an array, `sense`
the tri-state relation tag. -/
structure LinearConstraint where
  varsAndCoeffs : List (ℕ × (List ℕ × CoeffT))
  biasArr : BiasT
  sense : Int
  deriving DecidableEq

/-- Source `self.sample_dependent = bool(self._bias.shape)` (line 63): decided by
the bias array alone. -/
def LinearConstraint.sampleDependent (c : LinearConstraint) : Bool :=
  c.biasArr.isBatched

/-- Source `LinearConstraint.bias(index)` (lines 65-76): the `index`-th slice when
sample-dependent, the shared bias otherwise. -/
def LinearConstraint.biasAt (c : LinearConstraint) (index : ℕ) : BiasT :=
  if c.sampleDependent then
    match c.biasArr with
    | .batched l => .scalar (l.getD index 0)
    | .scalar q => .scalar q
  else c.biasArr

/-- Source `LinearConstraint.vars_and_coeffs(index)` (lines 78-94): when
`sample_dependent` every reference's coefficient array is indexed by the
sample, otherwise the list is returned unchanged. -/
def LinearConstraint.varsAndCoeffsAt (c : LinearConstraint) (index : ℕ) :
    List (ℕ × (List ℕ × CoeffT)) :=
  if c.sampleDependent then
    c.varsAndCoeffs.map fun vc => (vc.1, (vc.2.1, vc.2.2.indexAt index))
  else c.varsAndCoeffs

/-- Modelled from the spec words of C7 ("a reference's coefficient indexing
is decided by that coefficient array itself, not by the bias's
dimensionality"): index each coefficient array iff it is itself
sample-dependent.  Used only to compare against the source behaviour. -/
def varsAndCoeffsSpecC7 (c : LinearConstraint) (index : ℕ) :
    List (ℕ × (List ℕ × CoeffT)) :=
  c.varsAndCoeffs.map fun vc =>
    (vc.1, (vc.2.1,
      if vc.2.2.isSampleDependent then vc.2.2.indexAt index else vc.2.2))

/-- C7 (amended): `bias(index)` slices per sample exactly when the bias is
batched; and `vars_and_coeffs(index)` indexes EVERY reference's coefficient
array per sample exactly when the BIAS is batched (the single
`sample_dependent` flag) — each coefficient array's own dimensionality is
never consulted.  (The per-array rule of the unamended claim is refuted by
`coeff_indexing_ignores_coeff_shape`.) -/
theorem linear_constraint_indexing (c : LinearConstraint) (index : ℕ) :
    (∀ l, c.biasArr = BiasT.batched l →
        c.biasAt index = BiasT.scalar (l.getD index 0))
    ∧ (∀ q, c.biasArr = BiasT.scalar q → c.biasAt index = BiasT.scalar q)
    ∧ (c.biasArr.isBatched = true →
        c.varsAndCoeffsAt index
          = c.varsAndCoeffs.map fun vc => (vc.1, (vc.2.1, vc.2.2.indexAt index)))
    ∧ (c.biasArr.isBatched = false → c.varsAndCoeffsAt index = c.varsAndCoeffs) := by
  rcases c with ⟨vcs, b, s⟩
  cases b <;>
    simp [LinearConstraint.biasAt, LinearConstraint.varsAndCoeffsAt,
      LinearConstraint.sampleDependent, BiasT.isBatched]

/-- Witness for C7 on a constraint with a batched bias. -/
theorem linear_constraint_indexing_witness :
    (∀ l, (LinearConstraint.mk [] (BiasT.batched [5]) 0).biasArr = BiasT.batched l →
        (LinearConstraint.mk [] (BiasT.batched [5]) 0).biasAt 0
          = BiasT.scalar (l.getD 0 0))
    ∧ (∀ q, (LinearConstraint.mk [] (BiasT.batched [5]) 0).biasArr = BiasT.scalar q →
        (LinearConstraint.mk [] (BiasT.batched [5]) 0).biasAt 0 = BiasT.scalar q)
    ∧ ((LinearConstraint.mk [] (BiasT.batched [5]) 0).biasArr.isBatched = true →
        (LinearConstraint.mk [] (BiasT.batched [5]) 0).varsAndCoeffsAt 0
          = (LinearConstraint.mk [] (BiasT.batched [5]) 0).varsAndCoeffs.map
              fun vc => (vc.1, (vc.2.1, vc.2.2.indexAt 0)))
    ∧ ((LinearConstraint.mk [] (BiasT.batched [5]) 0).biasArr.isBatched = false →
        (LinearConstraint.mk [] (BiasT.batched [5]) 0).varsAndCoeffsAt 0
          = (LinearConstraint.mk [] (BiasT.batched [5]) 0).varsAndCoeffs) :=
  linear_constraint_indexing (LinearConstraint.mk [] (BiasT.batched [5]) 0) 0

/-- C7 counterexample: a constraint with a scalar bias but a BATCHED
coefficient array.  The claim says that reference must be indexed per
sample; the source returns it unindexed because `sample_dependent` (decided
by the bias) is false. -/
theorem coeff_indexing_ignores_coeff_shape :
    CoeffT.isSampleDependent (CoeffT.batched [[1], [2]]) = true
    ∧ (LinearConstraint.mk [(0, ([0], CoeffT.batched [[1], [2]]))]
          (BiasT.scalar 0) 0).varsAndCoeffsAt 1
        ≠ varsAndCoeffsSpecC7
            (LinearConstraint.mk [(0, ([0], CoeffT.batched [[1], [2]]))]
              (BiasT.scalar 0) 0) 1 := by
  refine ⟨rfl, ?_⟩
  simp [LinearConstraint.varsAndCoeffsAt, varsAndCoeffsSpecC7,
    LinearConstraint.sampleDependent, BiasT.isBatched,
    CoeffT.isSampleDependent, CoeffT.indexAt]

/-- A `RelaxVariable` (relaxation.py lines 35-53), reduced to what the
relaxation rules read: its node id and its interval bound, flattened. -/
structure RelaxVariable where
  name : ℕ
  lower : List ℚ
  upper : List ℚ
  deriving DecidableEq

/-- An argument of a primitive: an upstream `RelaxVariable` or a constant
tensor (a JAX literal). -/
inductive Arg
  | var (v : RelaxVariable)
  | lit (t : List ℚ)
  deriving DecidableEq

/-- A constraint attached to an output variable: either a `LinearConstraint`
or a `RelaxActivationConstraint` (out/in node ids, per-element scale and
bias tensors, sense). -/
inductive ConstraintM
  | linear (c : LinearConstraint)
  | act (outName inName : ℕ) (scale bias : List ℚ) (sense : Int)
  deriving DecidableEq

/-- The failures a relaxation rule can raise: `unsupported` models the
source's `NotImplementedError` (the spec's UnsupportedOperation);
`invalidOp` models a Python-level `TypeError`/`IndexError` from applying a
tensor operation (such as `jnp.abs`) or attribute access to a value of the
wrong kind. -/
inductive RelaxError
  | unsupported
  | invalidOp
  deriving DecidableEq

/-- The primitive kinds reaching `_relax_primitive`.  The first eight appear
in the source's dispatch lists; `exp`, `sign` and `tanh` stand for primitive
kinds outside all three groups. -/
inductive Primitive
  | broadcast_in_dim
  | add
  | conv_general_dilated
  | dot_general
  | sub
  | mul
  | max
  | reshape
  | exp
  | sign
  | tanh
  deriving DecidableEq

/-- Source `_affine_primitives_list` (relaxation.py lines 288-291). -/
def affinePrimitives : List Primitive :=
  [.broadcast_in_dim, .add, .conv_general_dilated, .dot_general, .sub, .mul]

/-- Source `_activation_list` (line 292). -/
def activationPrimitives : List Primitive := [.max]

/-- Source `_passthrough_list` (line 293). -/
def passthroughPrimitives : List Primitive := [.reshape]

/-- Source `jnp.amax(jnp.abs(t))` on a constant tensor. -/
def maxAbsT (t : List ℚ) : ℚ := t.foldl (fun m q => max m |q|) 0

/-- Elementwise upper-envelope slopes for a ReLU node. -/
def reluSlopeT (lo hi : List ℚ) : List ℚ :=
  List.zipWith (fun a b => (getReluRelax a b).1) lo hi

/-- Elementwise upper-envelope biases for a ReLU node. -/
def reluBiasT (lo hi : List ℚ) : List ℚ :=
  List.zipWith (fun a b => (getReluRelax a b).2) lo hi

/-- The three `RelaxActivationConstraint`s pushed for a ReLU node
(relaxation.py lines 352-368): `out ≥ 0`, `out ≥ x`, upper chord. -/
def reluConstraintTriple (outName : ℕ) (v : RelaxVariable) : List ConstraintM :=
  [ .act outName v.name (v.lower.map fun _ => 0) (v.lower.map fun _ => 0) 1,
    .act outName v.name (v.lower.map fun _ => 1) (v.lower.map fun _ => 0) 1,
    .act outName v.name (reluSlopeT v.lower v.upper)
      (reluBiasT v.lower v.upper) (-1) ]

/-- One equality `LinearConstraint` of the affine branch (lines 326-334):
the coefficients of the `i`-th output component, keeping only
`RelaxVariable` arguments, with the output variable appended at component
`i` with coefficient `-1`, the scalar bias from `_get_linear`, sense 0. -/
def mkAffineConstraint (outName : ℕ) (args : List Arg) (i : ℕ)
    (r : ℚ × List (List ℕ × List ℚ)) : ConstraintM :=
  .linear
    { varsAndCoeffs :=
        ((args.zip r.2).filterMap fun ac =>
          match ac.1 with
          | .var v => some (v.name, (ac.2.1, CoeffT.flat ac.2.2))
          | .lit _ => none)
        ++ [(outName, ([i], CoeffT.flat [-1]))],
      biasArr := BiasT.scalar r.1,
      sense := 0 }

/-- The max-activation branch of `_relax_primitive` (lines 335-371).  The
source first tests `isinstance(args[0], RelaxVariable)`; when that holds it
evaluates `jnp.amax(jnp.abs(args[1]))`, which on a second `RelaxVariable`
is an invalid tensor operation (modelled `invalidOp`); a nonzero constant
operand or any other shape raises `NotImplementedError` (`unsupported`). -/
def relaxActivationBranch (outName : ℕ) (args : List Arg) :
    Except RelaxError (ℕ × List ConstraintM) :=
  match args with
  | [.var _, .var _] => .error .invalidOp
  | [.var v, .lit t] =>
      if maxAbsT t ≠ 0 then .error .unsupported
      else .ok (outName, reluConstraintTriple outName v)
  | [.lit t, .var v] =>
      if maxAbsT t ≠ 0 then .error .unsupported
      else .ok (outName, reluConstraintTriple outName v)
  | [.lit _, .lit _] => .error .unsupported
  | _ => .error .unsupported

/-- Embeds `_relax_primitive` (relaxation.py lines 296-373).  The affine
branch consumes the output of `_get_linear` (embedded separately below);
here, as in the source, it arrives as a precomputed list `linearResults`
holding, per scalar output component, the bias and the per-argument sparse
coefficients.  Note the dispatch has NO failing fallthrough: a primitive in
none of the three lists leaves `constraints = []` and returns normally. -/
def relaxPrimitive (p : Primitive) (outName : ℕ)
    (linearResults : List (ℚ × List (List ℕ × List ℚ))) (args : List Arg) :
    Except RelaxError (ℕ × List ConstraintM) :=
  if p ∈ passthroughPrimitives then
    match args with
    | .var v :: _ =>
        .ok (outName,
          [.act outName v.name (v.lower.map fun _ => 1)
            (v.lower.map fun _ => 0) 0])
    | _ => .error .invalidOp
  else if p ∈ affinePrimitives then
    .ok (outName, linearResults.enum.map fun ir =>
      mkAffineConstraint outName args ir.1 ir.2)
  else if p ∈ activationPrimitives then
    relaxActivationBranch outName args
  else
    .ok (outName, [])

/-- C2: the source's dispatch never raises for a primitive outside the
three groups — it silently returns the output variable with an EMPTY
constraint list, contradicting the documented UnsupportedOperation
rejection (and the function's own docstring, which promises constraints
linking output to inputs). -/
theorem unmatched_primitive_silently_ok (p : Primitive) (out : ℕ)
    (rs : List (ℚ × List (List ℕ × List ℚ))) (args : List Arg)
    (h1 : p ∉ passthroughPrimitives) (h2 : p ∉ affinePrimitives)
    (h3 : p ∉ activationPrimitives) :
    relaxPrimitive p out rs args = .ok (out, []) := by
  unfold relaxPrimitive
  rw [if_neg h1, if_neg h2, if_neg h3]

/-- Witness for C2: the `exp` primitive is in none of the groups and flows
through without error and without constraints. -/
theorem unmatched_primitive_silently_ok_witness :
    relaxPrimitive .exp 7 [] [] = .ok (7, []) :=
  unmatched_primitive_silently_ok .exp 7 [] [] (by decide) (by decide)
    (by decide)

lemma max_dispatch_to_activation (out : ℕ)
    (rs : List (ℚ × List (List ℕ × List ℚ))) (args : List Arg) :
    relaxPrimitive .max out rs args = relaxActivationBranch out args := by
  unfold relaxPrimitive
  rw [if_neg (by decide), if_neg (by decide), if_pos (by decide)]

/-- C6 (amended): a max node fails with no constraints produced whenever it
does not have exactly two arguments, or neither argument is a variable, or
exactly one is a variable and the constant operand is not exactly zero — in
all those cases with the source's `NotImplementedError` (UnsupportedOperation);
when BOTH arguments are `RelaxVariable`s it also fails with no constraints,
but through an invalid tensor operation (`jnp.abs` of a `RelaxVariable`),
not through UnsupportedOperation (see `max_both_vars_type_error`). -/
theorem max_node_shape_rejections :
    (∀ (out : ℕ) rs (args : List Arg), args.length ≠ 2 →
        relaxPrimitive .max out rs args = .error .unsupported)
    ∧ (∀ (out : ℕ) rs t0 t1,
        relaxPrimitive .max out rs [.lit t0, .lit t1] = .error .unsupported)
    ∧ (∀ (out : ℕ) rs v0 v1,
        relaxPrimitive .max out rs [.var v0, .var v1] = .error .invalidOp)
    ∧ (∀ (out : ℕ) rs v t, maxAbsT t ≠ 0 →
        relaxPrimitive .max out rs [.var v, .lit t] = .error .unsupported)
    ∧ (∀ (out : ℕ) rs v t, maxAbsT t ≠ 0 →
        relaxPrimitive .max out rs [.lit t, .var v] = .error .unsupported) := by
  refine ⟨?_, ?_, ?_, ?_, ?_⟩
  · intro out rs args h
    rw [max_dispatch_to_activation]
    rcases args with _ | ⟨a0, _ | ⟨a1, _ | ⟨a2, rest⟩⟩⟩
    · rfl
    · cases a0 <;> rfl
    · simp at h
    · cases a0 <;> cases a1 <;> rfl
  · intro out rs t0 t1
    rw [max_dispatch_to_activation]
    rfl
  · intro out rs v0 v1
    rw [max_dispatch_to_activation]
    rfl
  · intro out rs v t h
    rw [max_dispatch_to_activation]
    simp [relaxActivationBranch, h]
  · intro out rs v t h
    rw [max_dispatch_to_activation]
    simp [relaxActivationBranch, h]

/-- Witness for C6: a max node with zero arguments is rejected. -/
theorem max_node_shape_rejections_witness :
    relaxPrimitive .max 0 [] [] = .error .unsupported :=
  max_node_shape_rejections.1 0 [] [] (by decide)

/-- C6 counterexample: with two `RelaxVariable` operands the failure is the
invalid-tensor-operation error, not the UnsupportedOperation failure the
claim names. -/
theorem max_both_vars_type_error :
    relaxPrimitive .max 0 [] [.var ⟨0, [0], [0]⟩, .var ⟨1, [0], [0]⟩]
      = .error .invalidOp
    ∧ (RelaxError.invalidOp ≠ RelaxError.unsupported) := by
  refine ⟨?_, by decide⟩
  rw [max_dispatch_to_activation]
  rfl

lemma foldl_max_abs_replicate_zero :
    ∀ (k : ℕ) (a : ℚ), 0 ≤ a →
      List.foldl (fun m q => max m |q|) a (List.replicate k 0) = a := by
  intro k
  induction k with
  | zero => intro a _; rfl
  | succ n ih =>
      intro a ha
      rw [List.replicate_succ, List.foldl_cons]
      have h0 : max a |(0 : ℚ)| = a := by
        rw [abs_zero]
        exact max_eq_left ha
      rw [h0]
      exact ih a ha

lemma maxAbsT_replicate_zero (k : ℕ) : maxAbsT (List.replicate k 0) = 0 :=
  foldl_max_abs_replicate_zero k 0 le_rfl

lemma zipWith_getD (f : ℚ → ℚ → ℚ) :
    ∀ (a b : List ℚ) (i : ℕ), i < a.length → i < b.length →
      (List.zipWith f a b).getD i 0 = f (a.getD i 0) (b.getD i 0) := by
  intro a
  induction a with
  | nil => intro b i h1 _; simp at h1
  | cons x xs ih =>
      intro b i h1 h2
      cases b with
      | nil => simp at h2
      | cons y ys =>
          cases i with
          | zero => simp
          | succ n =>
              simp only [List.zipWith_cons_cons, List.getD_cons_succ]
              exact ih ys n (by simpa using h1) (by simpa using h2)

/-- C3 (amended): elementwise, the upper-envelope slope and bias follow
three regimes — ACTIVE slope 1 bias 0 when `lower ≥ 0`, INACTIVE slope 0
bias 0 when `lower < 0 ∧ upper ≤ 0` (the unamended condition `upper ≤ 0`
alone is refuted at `lower = upper = 0` by
`relu_inactive_regime_misstated`), AMBIGUOUS slope `upper/(upper-lower)`
bias `-lower·upper/(upper-lower)` with the denominator floored at epsilon
when `lower < 0 < upper` — and a well-formed max node emits exactly the
three activation constraints `out ≥ 0`, `out ≥ in`,
`out ≤ slope·in + bias`, whose slope/bias tensors are the elementwise
`_get_relu_relax` values. -/
theorem relu_regimes_and_emission :
    (∀ l u : ℚ, 0 ≤ l → getReluRelax l u = (1, 0))
    ∧ (∀ l u : ℚ, l < 0 → u ≤ 0 → getReluRelax l u = (0, 0))
    ∧ (∀ l u : ℚ, l < 0 → 0 < u →
        getReluRelax l u
          = (u / max (u - l) relaxEps, -l * u / max (u - l) relaxEps))
    ∧ (∀ (out : ℕ) rs (v : RelaxVariable) (k : ℕ),
        relaxPrimitive .max out rs [.var v, .lit (List.replicate k 0)]
          = .ok (out,
              [ .act out v.name (v.lower.map fun _ => 0)
                  (v.lower.map fun _ => 0) 1,
                .act out v.name (v.lower.map fun _ => 1)
                  (v.lower.map fun _ => 0) 1,
                .act out v.name (reluSlopeT v.lower v.upper)
                  (reluBiasT v.lower v.upper) (-1) ]))
    ∧ (∀ (out : ℕ) (v : RelaxVariable), (reluConstraintTriple out v).length = 3)
    ∧ (∀ (lo hi : List ℚ) (i : ℕ), i < lo.length → i < hi.length →
        (reluSlopeT lo hi).getD i 0
            = (getReluRelax (lo.getD i 0) (hi.getD i 0)).1
        ∧ (reluBiasT lo hi).getD i 0
            = (getReluRelax (lo.getD i 0) (hi.getD i 0)).2) := by
  refine ⟨getReluRelax_active, getReluRelax_inactive, getReluRelax_ambiguous,
    ?_, ?_, ?_⟩
  · intro out rs v k
    rw [max_dispatch_to_activation]
    have hz : ¬(maxAbsT (List.replicate k 0) ≠ 0) := by
      simp [maxAbsT_replicate_zero]
    simp only [relaxActivationBranch, if_neg hz]
    rfl
  · intro out v
    rfl
  · intro lo hi i h1 h2
    exact ⟨zipWith_getD _ lo hi i h1 h2, zipWith_getD _ lo hi i h1 h2⟩

lemma q_neg_one_lt_zero : (-1 : ℚ) < 0 := by norm_num

lemma q_zero_lt_one : (0 : ℚ) < 1 := by norm_num

/-- The standard basis vector used to probe one input component. -/
def unitVec (n : ℕ) (j : Fin n) : Fin n → ℚ := fun i => if i = j then 1 else 0

/-- Embeds `_get_linear`'s bias for one scalar output component (relaxation.py
lines 248-251): the value of the component function with every variable
argument replaced by zeros (`funx`). -/
def getLinearBias {n : ℕ} (f : (Fin n → ℚ) → ℚ) : ℚ := f fun _ => 0

/-- Embeds `_get_linear`'s coefficient for one input component: the gradient of
the output component at zero (`jax.value_and_grad`).  For the affine
primitives of the dispatch list the gradient is constant, so it equals the
finite difference `f(e_j) - f(0)`, which is how it is rendered here. -/
def getLinearCoeff {n : ℕ} (f : (Fin n → ℚ) → ℚ) (j : Fin n) : ℚ :=
  f (unitVec n j) - getLinearBias f

/-- Bias for a component function of two variable arguments. -/
def getLinearBias2 {n m : ℕ} (f : (Fin n → ℚ) → (Fin m → ℚ) → ℚ) : ℚ :=
  f (fun _ => 0) fun _ => 0

/-- Gradient coefficient with respect to the first variable argument. -/
def getLinearCoeffA {n m : ℕ} (f : (Fin n → ℚ) → (Fin m → ℚ) → ℚ)
    (j : Fin n) : ℚ :=
  f (unitVec n j) (fun _ => 0) - getLinearBias2 f

/-- Gradient coefficient with respect to the second variable argument. -/
def getLinearCoeffB {n m : ℕ} (f : (Fin n → ℚ) → (Fin m → ℚ) → ℚ)
    (j : Fin m) : ℚ :=
  f (fun _ => 0) (unitVec m j) - getLinearBias2 f

/-- The residual of the constructed equality constraint for one output
component of a one-variable-argument primitive:
`Σ_{j, coeff_j ≠ 0} coeff_j·x_j + bias + (-1)·out`.  Zero coefficients are
discarded (`jnp.flatnonzero`), exactly as in the source. -/
def linResidual {n : ℕ} (f : (Fin n → ℚ) → ℚ) (x : Fin n → ℚ)
    (outv : ℚ) : ℚ :=
  (∑ j ∈ Finset.univ.filter fun j => getLinearCoeff f j ≠ 0,
      getLinearCoeff f j * x j)
    + getLinearBias f + (-1) * outv

/-- Residual for a primitive with two variable arguments. -/
def linResidual2 {n m : ℕ} (f : (Fin n → ℚ) → (Fin m → ℚ) → ℚ)
    (x : Fin n → ℚ) (y : Fin m → ℚ) (outv : ℚ) : ℚ :=
  (∑ j ∈ Finset.univ.filter fun j => getLinearCoeffA f j ≠ 0,
      getLinearCoeffA f j * x j)
    + (∑ j ∈ Finset.univ.filter fun j => getLinearCoeffB f j ≠ 0,
        getLinearCoeffB f j * y j)
    + getLinearBias2 f + (-1) * outv

/-- Embeds `lax.add` on two variable tensors, flattened to one sample. -/
def addP {n : ℕ} (x y : Fin n → ℚ) : Fin n → ℚ := fun i => x i + y i

/-- Embeds `lax.sub` on two variable tensors. -/
def subP {n : ℕ} (x y : Fin n → ℚ) : Fin n → ℚ := fun i => x i - y i

/-- Embeds `lax.add` of a variable and a constant tensor (the constant stays at
its concrete value in `funx`). -/
def addConstP {n : ℕ} (c x : Fin n → ℚ) : Fin n → ℚ := fun i => x i + c i

/-- Embeds `lax.mul` by a constant tensor. -/
def mulP {n : ℕ} (c x : Fin n → ℚ) : Fin n → ℚ := fun i => c i * x i

/-- Embeds `lax.dot_general` with a constant matrix. -/
def dotP {m n : ℕ} (A : Fin m → Fin n → ℚ) (x : Fin n → ℚ) : Fin m → ℚ :=
  fun i => ∑ j, A i j * x j

/-- Embeds `lax.broadcast_in_dim`: every output component reads one input
component through the index map `g`. -/
def broadcastP {m n : ℕ} (g : Fin m → Fin n) (x : Fin n → ℚ) : Fin m → ℚ :=
  fun i => x (g i)

lemma conv_idx_lt {m k : ℕ} (i : Fin m) (j : Fin (k + 1)) :
    i.1 + j.1 < m + k := by
  have h1 := i.isLt
  have h2 := j.isLt
  omega

/-- Embeds `lax.conv_general_dilated` in its valid 1-D form with a constant
kernel of width `k+1`: output `i` is `Σ_j w_j · x_(i+j)`. -/
def convP {m k : ℕ} (w : Fin (k + 1) → ℚ) (x : Fin (m + k) → ℚ) :
    Fin m → ℚ :=
  fun i => ∑ j, w j * x ⟨i.1 + j.1, conv_idx_lt i j⟩

lemma sum_filter_coeff {n : ℕ} (c x : Fin n → ℚ) :
    (∑ j ∈ Finset.univ.filter fun j => c j ≠ 0, c j * x j)
      = ∑ j, c j * x j := by
  refine Finset.sum_filter_of_ne ?_
  intro j _ h hc
  exact h (by rw [hc, zero_mul])

lemma linResidual_eq {n : ℕ} (f : (Fin n → ℚ) → ℚ) (x : Fin n → ℚ)
    (outv : ℚ) :
    linResidual f x outv
      = (∑ j, getLinearCoeff f j * x j) + getLinearBias f + (-1) * outv := by
  unfold linResidual
  rw [sum_filter_coeff]

lemma linResidual2_eq {n m : ℕ} (f : (Fin n → ℚ) → (Fin m → ℚ) → ℚ)
    (x : Fin n → ℚ) (y : Fin m → ℚ) (outv : ℚ) :
    linResidual2 f x y outv
      = (∑ j, getLinearCoeffA f j * x j) + (∑ j, getLinearCoeffB f j * y j)
        + getLinearBias2 f + (-1) * outv := by
  unfold linResidual2
  rw [sum_filter_coeff, sum_filter_coeff]

lemma exact_addP {n : ℕ} (x y : Fin n → ℚ) (i : Fin n) :
    linResidual2 (fun a b => addP a b i) x y (addP x y i) = 0 := by
  rw [linResidual2_eq]
  simp [getLinearCoeffA, getLinearCoeffB, getLinearBias2, addP, unitVec,
    ite_mul, Finset.sum_ite_eq]
  ring

lemma exact_subP {n : ℕ} (x y : Fin n → ℚ) (i : Fin n) :
    linResidual2 (fun a b => subP a b i) x y (subP x y i) = 0 := by
  rw [linResidual2_eq]
  simp [getLinearCoeffA, getLinearCoeffB, getLinearBias2, subP, unitVec,
    ite_mul, neg_mul, Finset.sum_ite_eq, Finset.sum_neg_distrib]
  ring

lemma exact_addConstP {n : ℕ} (c x : Fin n → ℚ) (i : Fin n) :
    linResidual (fun a => addConstP c a i) x (addConstP c x i) = 0 := by
  rw [linResidual_eq]
  simp [getLinearCoeff, getLinearBias, addConstP, unitVec, ite_mul,
    Finset.sum_ite_eq]
  ring

lemma exact_mulP {n : ℕ} (c x : Fin n → ℚ) (i : Fin n) :
    linResidual (fun a => mulP c a i) x (mulP c x i) = 0 := by
  rw [linResidual_eq]
  simp [getLinearCoeff, getLinearBias, mulP, unitVec, mul_ite, ite_mul,
    Finset.sum_ite_eq]

lemma exact_dotP {m n : ℕ} (A : Fin m → Fin n → ℚ) (x : Fin n → ℚ)
    (i : Fin m) :
    linResidual (fun a => dotP A a i) x (dotP A x i) = 0 := by
  rw [linResidual_eq]
  simp [getLinearCoeff, getLinearBias, dotP, unitVec, mul_ite,
    Finset.sum_ite_eq']

lemma exact_broadcastP {m n : ℕ} (g : Fin m → Fin n) (x : Fin n → ℚ)
    (i : Fin m) :
    linResidual (fun a => broadcastP g a i) x (broadcastP g x i) = 0 := by
  rw [linResidual_eq]
  simp [getLinearCoeff, getLinearBias, broadcastP, unitVec, ite_mul,
    Finset.sum_ite_eq]

lemma exact_convP {m k : ℕ} (w : Fin (k + 1) → ℚ) (x : Fin (m + k) → ℚ)
    (i : Fin m) :
    linResidual (fun a => convP w a i) x (convP w x i) = 0 := by
  rw [linResidual_eq]
  have hswap :
      (∑ t, getLinearCoeff (fun a => convP w a i) t * x t)
        = ∑ j, w j * x ⟨i.1 + j.1, conv_idx_lt i j⟩ := by
    simp only [getLinearCoeff, getLinearBias, convP, unitVec, mul_ite,
      mul_one, mul_zero, Finset.sum_const_zero, sub_zero]
    simp only [Finset.sum_mul]
    rw [Finset.sum_comm]
    simp [ite_mul, Finset.sum_ite_eq]
  rw [hswap]
  simp only [getLinearBias, convP, mul_zero, Finset.sum_const_zero]
  ring

lemma affine_dispatch_eq (p : Primitive) (out : ℕ)
    (rs : List (ℚ × List (List ℕ × List ℚ))) (args : List Arg)
    (hp : p ∈ affinePrimitives) :
    relaxPrimitive p out rs args
      = .ok (out, rs.enum.map fun ir => mkAffineConstraint out args ir.1 ir.2) := by
  have hnp : p ∉ passthroughPrimitives := by
    simp only [affinePrimitives, List.mem_cons, List.not_mem_nil, or_false] at hp
    rcases hp with rfl | rfl | rfl | rfl | rfl | rfl <;> decide
  unfold relaxPrimitive
  rw [if_neg hnp, if_pos hp]

/-- C4: the affine rule builds exactly one equality `LinearConstraint` per
scalar output component (one per entry of the `_get_linear` results), each
carrying the scalar bias, the surviving variable arguments' sparse
coefficients, and the output variable at its own component index with
coefficient `-1`; and for every primitive of the affine group the
extracted affine form is EXACT: the residual
`Σ coeff·input + bias - output` vanishes when the output is the
primitive's true value. -/
theorem affine_extraction_exact :
    (∀ (p : Primitive) (out : ℕ) (rs : List (ℚ × List (List ℕ × List ℚ)))
        (args : List Arg), p ∈ affinePrimitives →
        relaxPrimitive p out rs args
          = .ok (out, rs.enum.map fun ir => mkAffineConstraint out args ir.1 ir.2))
    ∧ (∀ (out : ℕ) (args : List Arg) (i : ℕ) (r : ℚ × List (List ℕ × List ℚ)),
        ∃ lc, mkAffineConstraint out args i r = .linear lc
          ∧ lc.sense = 0 ∧ lc.biasArr = BiasT.scalar r.1
          ∧ lc.varsAndCoeffs.getLast? = some (out, ([i], CoeffT.flat [-1])))
    ∧ (∀ (n : ℕ) (x y : Fin n → ℚ) (i : Fin n),
        linResidual2 (fun a b => addP a b i) x y (addP x y i) = 0)
    ∧ (∀ (n : ℕ) (x y : Fin n → ℚ) (i : Fin n),
        linResidual2 (fun a b => subP a b i) x y (subP x y i) = 0)
    ∧ (∀ (n : ℕ) (c x : Fin n → ℚ) (i : Fin n),
        linResidual (fun a => addConstP c a i) x (addConstP c x i) = 0)
    ∧ (∀ (n : ℕ) (c x : Fin n → ℚ) (i : Fin n),
        linResidual (fun a => mulP c a i) x (mulP c x i) = 0)
    ∧ (∀ (m n : ℕ) (A : Fin m → Fin n → ℚ) (x : Fin n → ℚ) (i : Fin m),
        linResidual (fun a => dotP A a i) x (dotP A x i) = 0)
    ∧ (∀ (m n : ℕ) (g : Fin m → Fin n) (x : Fin n → ℚ) (i : Fin m),
        linResidual (fun a => broadcastP g a i) x (broadcastP g x i) = 0)
    ∧ (∀ (m k : ℕ) (w : Fin (k + 1) → ℚ) (x : Fin (m + k) → ℚ) (i : Fin m),
        linResidual (fun a => convP w a i) x (convP w x i) = 0) := by
  refine ⟨affine_dispatch_eq, ?_, fun n => exact_addP, fun n => exact_subP,
    fun n => exact_addConstP, fun n => exact_mulP, fun m n => exact_dotP,
    fun m n => exact_broadcastP, fun m k => exact_convP⟩
  intro out args i r
  refine ⟨_, rfl, rfl, rfl, ?_⟩
  exact List.getLast?_concat _

/-- Witness for C4: the `add` primitive dispatches through the affine
branch. -/
theorem affine_extraction_exact_witness :
    relaxPrimitive .add 3 [] [] = .ok (3, []) := by
  have h := affine_extraction_exact.1 .add 3 [] [] (by decide)
  simpa using h

/-- C10: every `LinearConstraint` produced by the affine branch is
broadcast, never sample-dependent: its bias is the scalar produced by
`_get_linear` (which evaluates the primitive on a single-sample slice), so
`sample_dependent` is false and both accessors return identical data for
every sample index. -/
theorem affine_constraints_broadcast (p : Primitive) (out : ℕ)
    (rs : List (ℚ × List (List ℕ × List ℚ))) (args : List Arg)
    (hp : p ∈ affinePrimitives) :
    ∃ cs, relaxPrimitive p out rs args = .ok (out, cs)
      ∧ ∀ c ∈ cs, ∃ lc, c = .linear lc
          ∧ lc.sampleDependent = false
          ∧ ∀ s t : ℕ, lc.biasAt s = lc.biasAt t
            ∧ lc.varsAndCoeffsAt s = lc.varsAndCoeffsAt t := by
  refine ⟨_, affine_dispatch_eq p out rs args hp, ?_⟩
  intro c hc
  rw [List.mem_map] at hc
  obtain ⟨ir, _, rfl⟩ := hc
  refine ⟨_, rfl, rfl, ?_⟩
  intro s t
  constructor
  · simp [LinearConstraint.biasAt, mkAffineConstraint,
      LinearConstraint.sampleDependent, BiasT.isBatched]
  · simp [LinearConstraint.varsAndCoeffsAt, mkAffineConstraint,
      LinearConstraint.sampleDependent, BiasT.isBatched]

/-- Witness for C10 at the `mul` primitive with one variable argument. -/
theorem affine_constraints_broadcast_witness :
    ∃ cs, relaxPrimitive .mul 1 [(2, [([0], [3])])] [.var ⟨0, [0], [1]⟩]
        = .ok (1, cs)
      ∧ ∀ c ∈ cs, ∃ lc, c = .linear lc
          ∧ lc.sampleDependent = false
          ∧ ∀ s t : ℕ, lc.biasAt s = lc.biasAt t
            ∧ lc.varsAndCoeffsAt s = lc.varsAndCoeffsAt t :=
  affine_constraints_broadcast .mul 1 [(2, [([0], [3])])] [.var ⟨0, [0], [1]⟩]
    (by decide)

/-- Witness for C3 at a concrete ambiguous-regime node. -/
theorem relu_regimes_and_emission_witness :
    getReluRelax (-1) 1
      = ((1 : ℚ) / max ((1 : ℚ) - -1) relaxEps,
         -(-1) * 1 / max ((1 : ℚ) - -1) relaxEps) :=
  relu_regimes_and_emission.2.2.1 (-1) 1 q_neg_one_lt_zero q_zero_lt_one

/-- The one-hot objective `(jnp.arange(nb_targets) == target_idx)` cast to
float (relaxation.py line 433). -/
def oneHot (d : ℕ) (t : Fin d) : Fin d → ℚ := fun j => if j = t then 1 else 0

/-- A linear objective applied to a point: `objective · x`. -/
def dotObj {d : ℕ} (a x : Fin d → ℚ) : ℚ := ∑ j, a j * x j

/-- The per-feature lower bound computed by `tightened_variable_bounds`
(lines 433-435): `lb, _ = solver.minimize_objective(name, objective, 0., 0)`. -/
def tightenedLower {d : ℕ} (minimize : (Fin d → ℚ) → ℚ × Bool)
    (t : Fin d) : ℚ :=
  (minimize (oneHot d t)).1

/-- The per-feature upper bound (lines 437-441):
`neg_ub, _ = solver.minimize_objective(name, -objective, 0., 0)` and
`sample_ubs.append(-neg_ub)`. -/
def tightenedUpper {d : ℕ} (minimize : (Fin d → ℚ) → ℚ × Bool)
    (t : Fin d) : ℚ :=
  -(minimize (fun j => -oneHot d t j)).1

/-- Modelled from the spec: the Abstract LP Solver Contract for
`minimize_objective` (the concrete backend is outside this file's source;
only its abstract interface appears in relaxation.py lines 131-184).
`S` is the projection of the solver's feasible set onto the queried
variable's components; when the solver reports an optimum, the returned
value is attained on `S` and lower-bounds the objective over `S`. -/
def SolverSound {d : ℕ} (minimize : (Fin d → ℚ) → ℚ × Bool)
    (S : Set (Fin d → ℚ)) : Prop :=
  ∀ obj, (minimize obj).2 = true →
    (∃ x ∈ S, dotObj obj x = (minimize obj).1)
    ∧ ∀ x ∈ S, (minimize obj).1 ≤ dotObj obj x

/-- Modelled from the spec: `create_solver_variable` declares the variable
bound-constrained by its interval, so the solver's feasible set lies in the
box `[l, u]`. -/
def FeasibleWithinBox {d : ℕ} (S : Set (Fin d → ℚ))
    (l u : Fin d → ℚ) : Prop :=
  ∀ x ∈ S, ∀ i, l i ≤ x i ∧ x i ≤ u i

/-- C8: under any solver satisfying the Abstract LP Solver Contract, with
the variable's box declared into the solver and both solves reporting an
optimum (which the source asserts), the tightened interval nests inside
the pre-tightening interval: `l t ≤ new_lb t` and `new_ub t ≤ u t` for
every feature `t` (and hence for every sample, the per-sample solvers
being independent). -/
theorem tightening_never_widens {d : ℕ}
    (minimize : (Fin d → ℚ) → ℚ × Bool) (S : Set (Fin d → ℚ))
    (l u : Fin d → ℚ) (t : Fin d)
    (hS : SolverSound minimize S) (hbox : FeasibleWithinBox S l u)
    (hlb : (minimize (oneHot d t)).2 = true)
    (hub : (minimize (fun j => -oneHot d t j)).2 = true) :
    l t ≤ tightenedLower minimize t ∧ tightenedUpper minimize t ≤ u t := by
  constructor
  · obtain ⟨⟨x, hxS, hxval⟩, _⟩ := hS _ hlb
    have hxt : dotObj (oneHot d t) x = x t := by
      simp [dotObj, oneHot, ite_mul, Finset.sum_ite_eq']
    rw [tightenedLower, ← hxval, hxt]
    exact (hbox x hxS t).1
  · obtain ⟨⟨x, hxS, hxval⟩, _⟩ := hS _ hub
    have hxt : dotObj (fun j => -oneHot d t j) x = -x t := by
      simp [dotObj, oneHot, ite_mul, neg_mul, Finset.sum_ite_eq']
    rw [tightenedUpper, ← hxval, hxt, neg_neg]
    exact (hbox x hxS t).2

lemma trivial_solver_sound :
    SolverSound (fun obj => (dotObj obj fun _ => (0 : ℚ), true))
      ({fun _ => (0 : ℚ)} : Set (Fin 1 → ℚ)) := by
  intro obj _
  constructor
  · exact ⟨fun _ => 0, rfl, rfl⟩
  · intro x hx
    rw [Set.mem_singleton_iff] at hx
    rw [hx]

lemma trivial_solver_box :
    FeasibleWithinBox ({fun _ => (0 : ℚ)} : Set (Fin 1 → ℚ))
      (fun _ => 0) fun _ => 0 := by
  intro x hx i
  rw [Set.mem_singleton_iff] at hx
  rw [hx]
  exact ⟨le_rfl, le_rfl⟩

/-- Witness for C8 on a one-point solver model. -/
theorem tightening_never_widens_witness :
    (0 : ℚ) ≤ tightenedLower (fun obj => (dotObj obj fun _ => (0 : ℚ), true))
        (0 : Fin 1)
    ∧ tightenedUpper (fun obj => (dotObj obj fun _ => (0 : ℚ), true))
        (0 : Fin 1) ≤ (0 : ℚ) :=
  tightening_never_widens (fun obj => (dotObj obj fun _ => (0 : ℚ), true))
    ({fun _ => (0 : ℚ)} : Set (Fin 1 → ℚ)) (fun _ => 0) (fun _ => 0)
    (0 : Fin 1) trivial_solver_sound trivial_solver_box rfl rfl

/-- An observable action on one solver instance: declaring a node's
variable for one sample, or encoding one of the node's constraints for one
sample.  Constraints are tracked by an identifier. -/
inductive SolverEvent
  | declareVar (name : ℕ) (sampleIdx : ℕ)
  | encode (cid : ℕ) (sampleIdx : ℕ)
  deriving DecidableEq

/-- A solver instance, abstracted to the ordered log of actions pushed
into it. -/
abbrev SolverLog := List SolverEvent

/-- Source `solver.create_solver_variable(in_bounds, minibatch_index)`: push a
declaration event onto solver `i`. -/
def declareIn (name i : ℕ) (s2 : List SolverLog) : List SolverLog :=
  s2.set i (s2.getD i [] ++ [SolverEvent.declareVar name i])

/-- One iteration of the loop of
`OptimizedRelaxationTransform.input_transform` (lines 461-467): append a
fresh solver when `minibatch_index >= len(self.solvers)`, then declare the
input variable in solver `minibatch_index`. -/
def inputStep (name : ℕ) (solvers : List SolverLog) (i : ℕ) :
    List SolverLog :=
  declareIn name i (if solvers.length ≤ i then solvers ++ [[]] else solvers)

/-- Embeds `input_transform` for an input node with batch size `B`. -/
def inputTransform (solvers : List SolverLog) (name B : ℕ) :
    List SolverLog :=
  (List.range B).foldl (inputStep name) solvers

/-- The actions `primitive_transform` (lines 485-490) pushes into the
solver of sample `s`: declare the output variable, then encode each of its
constraints in order. -/
def primitiveEncode (outName : ℕ) (cs : List ℕ) (s : ℕ) :
    List SolverEvent :=
  SolverEvent.declareVar outName s :: cs.map fun c => SolverEvent.encode c s

/-- The loop of `primitive_transform` over `enumerate(self.solvers)`. -/
def primitiveTransformAux (outName : ℕ) (cs : List ℕ) :
    ℕ → List SolverLog → List SolverLog
  | _, [] => []
  | s, log :: rest =>
      (log ++ primitiveEncode outName cs s)
        :: primitiveTransformAux outName cs (s + 1) rest

/-- Embeds `OptimizedRelaxationTransform.primitive_transform`, after the wrapped
transform has produced the node's variable (`outName`) and its constraint
list (`cs`). -/
def primitiveTransform (solvers : List SolverLog) (outName : ℕ)
    (cs : List ℕ) : List SolverLog :=
  primitiveTransformAux outName cs 0 solvers

lemma list_getD_set_self {α : Type} (d : α) :
    ∀ (L : List α) (n : ℕ) (v : α), n < L.length → (L.set n v).getD n d = v := by
  intro L
  induction L with
  | nil => intro n v h; simp at h
  | cons x xs ih =>
      intro n v h
      cases n with
      | zero => rfl
      | succ m =>
          have := ih m v (by simpa using h)
          simpa [List.set] using this

lemma list_getD_set_ne {α : Type} (d : α) :
    ∀ (L : List α) (n m : ℕ) (v : α), m ≠ n →
      (L.set n v).getD m d = L.getD m d := by
  intro L
  induction L with
  | nil => intro n m v _; simp
  | cons x xs ih =>
      intro n m v h
      cases n with
      | zero =>
          cases m with
          | zero => exact absurd rfl h
          | succ m2 => rfl
      | succ n2 =>
          cases m with
          | zero => rfl
          | succ m2 =>
              have := ih n2 m2 v (fun hc => h (by rw [hc]))
              simpa [List.set] using this

lemma list_getD_append_len {α : Type} (d : α) (L : List α) (a : α) :
    (L ++ [a]).getD L.length d = a := by
  rw [List.getD_append_right _ _ _ _ le_rfl]
  simp

lemma list_set_append_len {α : Type} :
    ∀ (L : List α) (a b : α), (L ++ [a]).set L.length b = L ++ [b] := by
  intro L
  induction L with
  | nil => intro a b; rfl
  | cons x xs ih =>
      intro a b
      show x :: (xs ++ [a]).set xs.length b = x :: (xs ++ [b])
      exact congrArg _ (ih a b)

lemma getD_map_range {α : Type} (d : α) (f : ℕ → α) :
    ∀ (B s : ℕ), s < B → ((List.range B).map f).getD s d = f s := by
  intro B
  induction B with
  | zero => intro s h; exact absurd h (Nat.not_lt_zero s)
  | succ B ih =>
      intro s h
      rw [List.range_succ, List.map_append]
      rcases Nat.lt_or_ge s B with h2 | h2
      · rw [List.getD_append _ _ _ _ (by simpa using h2)]
        exact ih s h2
      · have hs : s = B := by omega
        subst hs
        have hlen := list_getD_append_len d ((List.range s).map f) (f s)
        rw [List.length_map, List.length_range] at hlen
        exact hlen

lemma inputTransform_succ (S : List SolverLog) (name B : ℕ) :
    inputTransform S name (B + 1)
      = inputStep name (inputTransform S name B) B := by
  unfold inputTransform
  rw [List.range_succ, List.foldl_append]
  rfl

lemma inputTransform_nil_closed (name : ℕ) :
    ∀ B, inputTransform [] name B
      = (List.range B).map fun s => [SolverEvent.declareVar name s] := by
  intro B
  induction B with
  | zero => rfl
  | succ B ih =>
      rw [inputTransform_succ, ih]
      unfold inputStep
      have hlen :
          ((List.range B).map fun s => [SolverEvent.declareVar name s]).length
            = B := by
        simp
      rw [if_pos (le_of_eq hlen)]
      unfold declareIn
      have hgd := list_getD_append_len ([] : SolverLog)
        ((List.range B).map fun s => [SolverEvent.declareVar name s]) []
      rw [hlen] at hgd
      rw [hgd, List.nil_append]
      have hset := list_set_append_len
        ((List.range B).map fun s => [SolverEvent.declareVar name s])
        ([] : SolverLog) ([SolverEvent.declareVar name B])
      rw [hlen] at hset
      rw [hset, List.range_succ, List.map_append]
      rfl

lemma inputTransform_full (name : ℕ) :
    ∀ (B : ℕ) (S : List SolverLog), B ≤ S.length →
      (inputTransform S name B).length = S.length
      ∧ ∀ s : ℕ,
          (inputTransform S name B).getD s []
            = if s < B then S.getD s [] ++ [SolverEvent.declareVar name s]
              else S.getD s [] := by
  intro B
  induction B with
  | zero =>
      intro S h
      refine ⟨rfl, fun s => ?_⟩
      simp [inputTransform]
  | succ B ih =>
      intro S h
      obtain ⟨hlen, hget⟩ := ih S (by omega)
      rw [inputTransform_succ]
      unfold inputStep
      rw [if_neg (by omega)]
      unfold declareIn
      constructor
      · rw [List.length_set, hlen]
      · intro s
        by_cases hs : s = B
        · subst hs
          rw [list_getD_set_self _ _ _ _ (by omega)]
          rw [hget s]
          rw [if_neg (lt_irrefl s), if_pos (Nat.lt_succ_self s)]
        · rw [list_getD_set_ne _ _ _ _ _ hs]
          rw [hget s]
          by_cases hs2 : s < B
          · rw [if_pos hs2, if_pos (by omega)]
          · rw [if_neg hs2, if_neg (by omega)]

lemma primitiveTransformAux_length (out : ℕ) (cs : List ℕ) :
    ∀ (S : List SolverLog) (s0 : ℕ),
      (primitiveTransformAux out cs s0 S).length = S.length := by
  intro S
  induction S with
  | nil => intro s0; rfl
  | cons log rest ih =>
      intro s0
      simp [primitiveTransformAux, ih]

lemma primitiveTransformAux_getD (out : ℕ) (cs : List ℕ) :
    ∀ (S : List SolverLog) (s0 s : ℕ), s < S.length →
      (primitiveTransformAux out cs s0 S).getD s []
        = S.getD s [] ++ primitiveEncode out cs (s0 + s) := by
  intro S
  induction S with
  | nil => intro s0 s h; simp at h
  | cons log rest ih =>
      intro s0 s h
      cases s with
      | zero => simp [primitiveTransformAux]
      | succ m =>
          simp only [primitiveTransformAux, List.getD_cons_succ]
          rw [ih (s0 + 1) m (by simpa using h)]
          have harith : s0 + 1 + m = s0 + (m + 1) := by omega
          rw [harith]

/-- C9: each `input_transform` call with batch size `B`, starting from no
solvers, leaves exactly `B` solver instances, the `s`-th holding exactly
the declaration of the input variable for sample `s`; a later input node
with the same batch size appends no instance (the list stays of length
`B`, one declaration added per solver); and `primitive_transform` keeps
the instance list intact and pushes into EVERY live solver the node's
variable declaration followed by all of its constraints, in order. -/
theorem optimized_transform_incremental_encoding :
    (∀ name B : ℕ, (inputTransform [] name B).length = B)
    ∧ (∀ name B s : ℕ, s < B →
        (inputTransform [] name B).getD s []
          = [SolverEvent.declareVar name s])
    ∧ (∀ (name B : ℕ) (S : List SolverLog), S.length = B →
        (inputTransform S name B).length = B)
    ∧ (∀ (name B s : ℕ) (S : List SolverLog), S.length = B → s < B →
        (inputTransform S name B).getD s []
          = S.getD s [] ++ [SolverEvent.declareVar name s])
    ∧ (∀ (S : List SolverLog) (out : ℕ) (cs : List ℕ),
        (primitiveTransform S out cs).length = S.length)
    ∧ (∀ (S : List SolverLog) (out : ℕ) (cs : List ℕ) (s : ℕ),
        s < S.length →
        (primitiveTransform S out cs).getD s []
          = S.getD s []
            ++ SolverEvent.declareVar out s
              :: cs.map fun c => SolverEvent.encode c s) := by
  refine ⟨?_, ?_, ?_, ?_, ?_, ?_⟩
  · intro name B
    rw [inputTransform_nil_closed]
    simp
  · intro name B s h
    rw [inputTransform_nil_closed]
    exact getD_map_range _ _ B s h
  · intro name B S hS
    exact hS ▸ (inputTransform_full name B S (le_of_eq hS.symm)).1
  · intro name B s S hS hs
    have h2 := (inputTransform_full name B S (le_of_eq hS.symm)).2 s
    rw [if_pos hs] at h2
    exact h2
  · intro S out cs
    exact primitiveTransformAux_length out cs S 0
  · intro S out cs s h
    have h2 := primitiveTransformAux_getD out cs S 0 s h
    rw [Nat.zero_add] at h2
    exact h2

/-- Witness for C9: two samples, input node `0`, then a primitive node `1`
with one constraint, checked on sample `1`. -/
theorem optimized_transform_incremental_encoding_witness :
    (inputTransform [] 0 2).getD 1 [] = [SolverEvent.declareVar 0 1] :=
  optimized_transform_incremental_encoding.2.1 0 2 1 (by decide)

end JaxVerify
